import Mathlib

/-!
Shallow embedding of the sentiment-classifier repository:
  * `src/data_processing.py` — `build_vocab`, `bag_of_words`
  * `src/naive_bayes.py` — class `NaiveBayes` with `fit`,
    `estimate_class_priors`, `estimate_conditional_probabilities`,
    `estimate_class_posteriors`, `predict`, `predict_proba`.

Modelling conventions:
  * Python floats are modelled as rationals (`ℚ`); the two transcendental
    library functions the code calls (`torch.log` in the posterior
    computation, the exponential inside `torch.nn.functional.softmax`)
    are passed in as explicit function parameters `lg`, `ex : ℚ → ℚ`,
    so every statement about the inference path holds for any
    interpretation of them, the real logarithm/exponential included.
  * Python dictionaries keyed by contiguous class indices `0..K-1`
    (`class_priors`, `conditional_probabilities`) are modelled as lists
    indexed by position; a vocabulary dictionary `Dict[str, int]` is an
    association list `List (String × ℕ)` in insertion order.
  * Raised Python exceptions are modelled by `Except PyError`; code that
    cannot raise is a plain function.
  * `torch.Tensor` 1-D values are `List ℚ`; 2-D values are `List (List ℚ)`
    (rows), with row-length uniformity a hypothesis where the tensor shape
    guarantees it in the original.
-/

/-- The exceptions the embedded code can signal.  `untrained` stands for the
`ValueError`/generic `Exception` raised by the trained-state guards,
`shapeMismatch` for the `RuntimeError` PyTorch raises on incompatible
tensor shapes, `keyError` for a missing dictionary key, `indexError` for a
list index out of range, and `emptyReduction` for the `RuntimeError` raised
by `torch.max` on an empty tensor. -/
inductive PyError where
  | untrained
  | shapeMismatch
  | keyError
  | indexError
  | emptyReduction
  deriving DecidableEq, Repr

/-- A parsed training example: token list plus integer label.
Mirrors `SentimentExample` from `src/utils.py` (declared there, consumed
here); labels are the non-negative class indices the model supports. -/
structure SentimentExample where
  words : List String
  label : ℕ
  deriving DecidableEq, Repr

/-- Association-list lookup, the embedding of a Python `dict` read
(`word in vocab` / `vocab[word]`): first binding wins, `none` when the key
is absent. -/
def lookupA (w : String) : List (String × ℕ) → Option ℕ
  | [] => none
  | (k, v) :: rest => if k = w then some v else lookupA w rest

/-- `build_vocab` from `src/data_processing.py`: walk the examples in
order and, word by word, assign the next sequential index to each word not
seen before.  `index` mirrors the running counter of the Python code. -/
def buildVocabWords (vocab : List (String × ℕ)) (index : ℕ) :
    List String → List (String × ℕ) × ℕ
  | [] => (vocab, index)
  | w :: ws =>
    if (lookupA w vocab).isSome then buildVocabWords vocab index ws
    else buildVocabWords (vocab ++ [(w, index)]) (index + 1) ws

/-- `build_vocab(examples)`: fold `buildVocabWords` over the examples,
starting from the empty dictionary and counter 0. -/
def build_vocab (examples : List SentimentExample) : List (String × ℕ) :=
  (examples.foldl (fun acc ex => buildVocabWords acc.1 acc.2 ex.words) ([], 0)).1

/-- One iteration of the `bag_of_words` loop: if the word is in the
vocabulary, write (binary mode) or increment (count mode) the vector at the
word's index; out-of-vocabulary words leave the vector unchanged.  A stored
index outside the vector (impossible for a `build_vocab`-produced
vocabulary) is the Python `IndexError`. -/
def bowStep (vocab : List (String × ℕ)) (binary : Bool) (vec : List ℚ)
    (word : String) : Except PyError (List ℚ) :=
  match lookupA word vocab with
  | none => Except.ok vec
  | some index =>
    if index < vec.length then
      Except.ok (if binary then vec.set index 1
                 else vec.set index (vec.getD index 0 + 1))
    else Except.error PyError.indexError

/-- The `for word in text` loop of `bag_of_words`, processing the tokens
left to right from the current vector. -/
def bowLoop (vocab : List (String × ℕ)) (binary : Bool) :
    List ℚ → List String → Except PyError (List ℚ)
  | vec, [] => Except.ok vec
  | vec, w :: ws => do
    let vec' ← bowStep vocab binary vec w
    bowLoop vocab binary vec' ws

/-- `bag_of_words(text, vocab, binary)` from `src/data_processing.py`:
start from the zero vector of length `len(vocab)` and process the tokens
left to right. -/
def bag_of_words (text : List String) (vocab : List (String × ℕ))
    (binary : Bool := false) : Except PyError (List ℚ) :=
  bowLoop vocab binary (List.replicate vocab.length 0) text

/-- The `NaiveBayes` object state: the three attributes set in `__init__`
(to `None`) and overwritten by `fit`. -/
structure NaiveBayes where
  class_priors : Option (List ℚ)
  conditional_probabilities : Option (List (List ℚ))
  vocab_size : Option ℕ
  deriving DecidableEq, Repr

/-- The freshly constructed, untrained model (`NaiveBayes.__init__`). -/
def NaiveBayes.init : NaiveBayes :=
  { class_priors := none, conditional_probabilities := none, vocab_size := none }

/-- `torch.max(labels)` over a non-empty list of labels; the empty case is
handled separately (torch raises) where it matters. -/
def maxLabel (labels : List ℕ) : ℕ := labels.foldl max 0

/-- `torch.bincount(labels)`: entry `c` counts the occurrences of `c`; the
result has length `max(labels) + 1`, and is empty for empty input. -/
def bincount (labels : List ℕ) : List ℕ :=
  if labels.isEmpty then []
  else (List.range (maxLabel labels + 1)).map (fun c => labels.count c)

/-- `NaiveBayes.estimate_class_priors(labels)`: bincount divided by the
number of samples, as the dictionary `{0: ..., 1: ..., ...}` (here: a list
indexed by class). -/
def estimate_class_priors (labels : List ℕ) : List ℚ :=
  (bincount labels).map (fun count : ℕ => (count : ℚ) / (labels.length : ℚ))

/-- Elementwise sum of two equally long vectors (tensor `+`); rows of one
matrix always have equal length, which theorems track as a hypothesis. -/
def addVec (a b : List ℚ) : List ℚ := List.zipWith (· + ·) a b

/-- Zero vector, `torch.zeros(n)`. -/
def zerosQ (n : ℕ) : List ℚ := List.replicate n 0

/-- `features[labels == c]`: the rows whose label equals `c`. -/
def selectRows (features : List (List ℚ)) (labels : List ℕ) (c : ℕ) :
    List (List ℚ) :=
  (features.zip labels).filterMap (fun p => if p.2 = c then some p.1 else none)

/-- `class_features.sum(dim=0)` for a (possibly empty) stack of rows of
width `n`. -/
def sumRows (n : ℕ) (rows : List (List ℚ)) : List ℚ :=
  rows.foldl addVec (zerosQ n)

/-- `features.shape[1]`: the row width of the feature matrix. -/
def numCols (features : List (List ℚ)) : ℕ :=
  ((features.head?).map List.length).getD 0

/-- `NaiveBayes.estimate_conditional_probabilities(features, labels, delta)`:
per class `c = 0..max(labels)`, the Laplace-smoothed word distribution
`(word_counts[c] + delta) / (word_counts[c].sum() + delta * vocab_size)`.
`torch.max` on an empty label tensor raises, and boolean-mask selection
raises when the mask length differs from the number of rows; both are
surfaced as errors.  No validation of `delta` is performed, mirroring
the source. -/
def estimate_conditional_probabilities (features : List (List ℚ))
    (labels : List ℕ) (delta : ℚ) : Except PyError (List (List ℚ)) :=
  if labels.isEmpty then Except.error PyError.emptyReduction
  else if features.length ≠ labels.length then Except.error PyError.shapeMismatch
  else
    let num_classes := maxLabel labels + 1
    let vocab_size := numCols features
    let word_counts := fun c => sumRows vocab_size (selectRows features labels c)
    Except.ok ((List.range num_classes).map (fun c =>
      (word_counts c).map (fun count =>
        (count + delta) / ((word_counts c).sum + delta * (vocab_size : ℚ)))))

/-- `NaiveBayes.fit(features, labels, delta)`: set the priors, cache
`vocab_size = features.shape[1]`, and set the conditional probabilities.
The method performs no validation of `delta` or of the training-set size
beyond what the tensor operations themselves raise. -/
def fit (features : List (List ℚ)) (labels : List ℕ) (delta : ℚ) :
    Except PyError NaiveBayes := do
  let priors := estimate_class_priors labels
  let vocabSize := numCols features
  let conds ← estimate_conditional_probabilities features labels delta
  pure { class_priors := some priors,
         conditional_probabilities := some conds,
         vocab_size := some vocabSize }

/-- 1-D tensor broadcasting of elementwise `*` (PyTorch semantics): equal
lengths multiply pointwise, a length-1 operand is stretched, and any other
combination raises a `RuntimeError`. -/
def broadcastMul (a b : List ℚ) : Except PyError (List ℚ) :=
  if a.length = b.length then Except.ok (List.zipWith (· * ·) a b)
  else if a.length = 1 then Except.ok (b.map (fun y => a.headD 0 * y))
  else if b.length = 1 then Except.ok (a.map (fun x => x * b.headD 0))
  else Except.error PyError.shapeMismatch

/-- `torch.sum(feature * torch.log(probs))` with the logarithm abstracted
as `lg`. -/
def logLikelihood (lg : ℚ → ℚ) (feature probs : List ℚ) :
    Except PyError ℚ := do
  let prod ← broadcastMul feature (probs.map lg)
  pure prod.sum

/-- The `for c in self.class_priors` loop of
`estimate_class_posteriors`: for each class key `c` in order, look up
`conditional_probabilities[c]` (a missing key is a `KeyError`) and record
`log(prior[c]) + sum(feature * log(cond[c]))`. -/
def posteriorsLoop (lg : ℚ → ℚ) (cps : List (List ℚ)) (priors : List ℚ)
    (feature : List ℚ) : List ℕ → Except PyError (List ℚ)
  | [] => Except.ok []
  | c :: cs =>
    match cps.get? c with
    | none => Except.error PyError.keyError
    | some probs => do
      let ll ← logLikelihood lg feature probs
      let rest ← posteriorsLoop lg cps priors feature cs
      pure ((lg (priors.getD c 0) + ll) :: rest)

/-- `NaiveBayes.estimate_class_posteriors(feature)`: after the
`is None` guard, loop over the keys of `class_priors` (the contiguous class
indices `0..K-1`, in insertion order), build the dictionary of
log-posteriors `log(prior[c]) + sum(feature * log(cond[c]))`, and return
the two-element tensor `[log_posteriors[0], log_posteriors[1]]` — the
source hardcodes the two class keys, so a missing key 0 or 1 is a
`KeyError`. -/
def estimate_class_posteriors (lg : ℚ → ℚ) (m : NaiveBayes)
    (feature : List ℚ) : Except PyError (List ℚ) :=
  match m.conditional_probabilities, m.class_priors with
  | none, _ => Except.error PyError.untrained
  | some _, none => Except.error PyError.untrained
  | some cps, some priors => do
    let lps ← posteriorsLoop lg cps priors feature (List.range priors.length)
    match lps.get? 0, lps.get? 1 with
    | some a, some b => pure [a, b]
    | _, _ => Except.error PyError.keyError

/-- Python truthiness test `not x` for an optional dictionary: `None` and
the empty dictionary are falsy. -/
def isFalsy {α : Type} : Option (List α) → Bool
  | none => true
  | some l => l.isEmpty

/-- Largest element of a list (`torch.max` value over a 1-D tensor); 0 for
the empty list, which torch instead rejects — every use below is on
non-empty input. -/
def maxD : List ℚ → ℚ
  | [] => 0
  | [x] => x
  | x :: y :: xs => max x (maxD (y :: xs))

/-- `torch.argmax` over a 1-D tensor: the index of the first (hence lowest)
maximal entry, per the PyTorch documentation's tie rule; 0 for the empty
list, which torch instead rejects — every use below is on non-empty
input. -/
def argmaxQ : List ℚ → ℕ
  | [] => 0
  | [_] => 0
  | x :: y :: xs => if maxD (y :: xs) ≤ x then 0 else argmaxQ (y :: xs) + 1

/-- `NaiveBayes.predict(feature)`: the truthiness guard on both trained
attributes, then argmax of the log-posteriors. -/
def predict (lg : ℚ → ℚ) (m : NaiveBayes) (feature : List ℚ) :
    Except PyError ℕ :=
  if isFalsy m.class_priors || isFalsy m.conditional_probabilities then
    Except.error PyError.untrained
  else do
    let lps ← estimate_class_posteriors lg m feature
    pure (argmaxQ lps)

/-- `torch.nn.functional.softmax` with the exponential abstracted as `ex`:
the numerically stable form subtracts the maximum before exponentiating and
normalises by the sum. -/
def softmaxQ (ex : ℚ → ℚ) (l : List ℚ) : List ℚ :=
  let m := maxD l
  let e := l.map (fun x => ex (x - m))
  e.map (fun v => v / e.sum)

/-- `NaiveBayes.predict_proba(feature)`: the truthiness guard, then softmax
of the log-posteriors. -/
def predict_proba (lg ex : ℚ → ℚ) (m : NaiveBayes) (feature : List ℚ) :
    Except PyError (List ℚ) :=
  if isFalsy m.class_priors || isFalsy m.conditional_probabilities then
    Except.error PyError.untrained
  else do
    let lps ← estimate_class_posteriors lg m feature
    pure (softmaxQ ex lps)

/-- Specification-side column count: the sum of column `w` of `features`
restricted to the rows labelled `c` — the `count(c,w)` of the spec, written
directly as a column sum rather than through the tensor fold, for the
refinement statements. -/
def countCW (features : List (List ℚ)) (labels : List ℕ) (c w : ℕ) : ℚ :=
  ((selectRows features labels c).map (fun row => row.getD w 0)).sum

/-- Specification-side hit count: how many tokens of `text` the vocabulary
sends to index `j`. -/
def hitCount (vocab : List (String × ℕ)) (text : List String) (j : ℕ) : ℕ :=
  (text.filter (fun t => lookupA t vocab = some j)).length

/-- A vocabulary is well formed as the data model requires — the dictionary
has no duplicate keys, the stored indices are pairwise distinct, and every
index is below the dictionary's size (as `build_vocab` produces). -/
def WellFormedVocab (vocab : List (String × ℕ)) : Prop :=
  (vocab.map Prod.fst).Nodup ∧ (vocab.map Prod.snd).Nodup ∧
    ∀ p ∈ vocab, p.2 < vocab.length

instance (vocab : List (String × ℕ)) : Decidable (WellFormedVocab vocab) := by
  unfold WellFormedVocab; infer_instance

/-- The value `estimate_conditional_probabilities` returns on the non-error
path, named for reuse in the trained-model statements. -/
def condsMatrix (features : List (List ℚ)) (labels : List ℕ) (delta : ℚ) :
    List (List ℚ) :=
  (List.range (maxLabel labels + 1)).map (fun c =>
    (sumRows (numCols features) (selectRows features labels c)).map
      (fun count =>
        (count + delta) /
          ((sumRows (numCols features) (selectRows features labels c)).sum +
            delta * (numCols features : ℚ))))

/-- The trained state `fit` produces on the non-error path. -/
def fittedModel (features : List (List ℚ)) (labels : List ℕ) (delta : ℚ) :
    NaiveBayes :=
  { class_priors := some (estimate_class_priors labels),
    conditional_probabilities := some (condsMatrix features labels delta),
    vocab_size := some (numCols features) }

/-! ### Association-list lookup lemmas -/

theorem lookupA_mem {w : String} {vocab : List (String × ℕ)} {i : ℕ}
    (h : lookupA w vocab = some i) : (w, i) ∈ vocab := by
  induction vocab with
  | nil => simp [lookupA] at h
  | cons p rest ih =>
    obtain ⟨k, v⟩ := p
    simp only [lookupA] at h
    by_cases hk : k = w
    · rw [if_pos hk] at h
      injection h with h
      subst hk
      subst h
      exact List.mem_cons_self _ _
    · rw [if_neg hk] at h
      exact List.mem_cons_of_mem _ (ih h)

theorem lookupA_of_mem_nodup {w : String} {vocab : List (String × ℕ)} {i : ℕ}
    (hkeys : (vocab.map Prod.fst).Nodup) (h : (w, i) ∈ vocab) :
    lookupA w vocab = some i := by
  induction vocab with
  | nil => simp at h
  | cons p rest ih =>
    simp only [List.map_cons, List.nodup_cons] at hkeys
    rcases List.mem_cons.mp h with h1 | h1
    · subst h1
      simp [lookupA]
    · have hne : p.1 ≠ w := by
        intro he
        exact hkeys.1 (he ▸ List.mem_map_of_mem Prod.fst h1)
      simp [lookupA, hne]
      exact ih hkeys.2 h1

theorem lookupA_isSome_iff {w : String} {vocab : List (String × ℕ)} :
    (lookupA w vocab).isSome ↔ ∃ i, (w, i) ∈ vocab := by
  constructor
  · intro h
    rcases Option.isSome_iff_exists.mp h with ⟨i, hi⟩
    exact ⟨i, lookupA_mem hi⟩
  · rintro ⟨i, hi⟩
    induction vocab with
    | nil => simp at hi
    | cons p rest ih =>
      by_cases hk : p.1 = w
      · simp [lookupA, hk]
      · simp [lookupA, hk]
        rcases List.mem_cons.mp hi with h1 | h1
        · exact absurd (congrArg Prod.fst h1.symm) hk
        · exact ih h1

/-! ### `bag_of_words` lemmas -/

theorem getD_set_self {l : List ℚ} {i : ℕ} {x : ℚ} (h : i < l.length) :
    (l.set i x).getD i 0 = x := by
  simp [List.getD_eq_getElem?_getD, List.getElem?_set_eq_of_lt x h]

theorem getD_set_ne {l : List ℚ} {i j : ℕ} {x : ℚ} (h : i ≠ j) :
    (l.set i x).getD j 0 = l.getD j 0 := by
  simp [List.getD_eq_getElem?_getD, List.getElem?_set_ne h]

theorem hitCount_nil (vocab : List (String × ℕ)) (j : ℕ) :
    hitCount vocab [] j = 0 := rfl

theorem hitCount_cons (vocab : List (String × ℕ)) (w : String)
    (ws : List String) (j : ℕ) :
    hitCount vocab (w :: ws) j =
      (if lookupA w vocab = some j then 1 else 0) + hitCount vocab ws j := by
  by_cases h : lookupA w vocab = some j
  · simp [hitCount, List.filter_cons, h, Nat.add_comm]
  · simp [hitCount, List.filter_cons, h]

theorem bowLoop_count_spec (vocab : List (String × ℕ))
    (hidx : ∀ p ∈ vocab, p.2 < vocab.length) :
    ∀ (text : List String) (vec : List ℚ), vec.length = vocab.length →
    ∃ v, bowLoop vocab false vec text = Except.ok v ∧
      v.length = vocab.length ∧
      ∀ j, v.getD j 0 = vec.getD j 0 + (hitCount vocab text j : ℚ) := by
  intro text
  induction text with
  | nil =>
    intro vec hlen
    exact ⟨vec, rfl, hlen, fun j => by simp [hitCount_nil]⟩
  | cons w ws ih =>
    intro vec hlen
    cases hw : lookupA w vocab with
    | none =>
      rcases ih vec hlen with ⟨v, hv, hvl, hvd⟩
      refine ⟨v, ?_, hvl, ?_⟩
      · simp [bowLoop, bowStep, hw, hv, bind, Except.bind]
      · intro j
        rw [hvd j, hitCount_cons]
        simp [hw]
    | some i =>
      have hi : i < vec.length := by
        rw [hlen]
        exact hidx _ (lookupA_mem hw)
      rcases ih (vec.set i (vec.getD i 0 + 1))
        (by rw [List.length_set]; exact hlen) with ⟨v, hv, hvl, hvd⟩
      refine ⟨v, ?_, hvl, ?_⟩
      · simpa [bowLoop, bowStep, hw, hi, bind, Except.bind,
          List.getD_eq_getElem] using hv
      · intro j
        rw [hvd j, hitCount_cons]
        by_cases hj : j = i
        · subst hj
          rw [getD_set_self hi]
          simp [hw]
          ring
        · rw [getD_set_ne (fun he => hj he.symm)]
          have : ¬ lookupA w vocab = some j := by
            rw [hw]
            simp
            exact fun he => hj he.symm
          simp [this]

theorem bowLoop_binary_spec (vocab : List (String × ℕ))
    (hidx : ∀ p ∈ vocab, p.2 < vocab.length) :
    ∀ (text : List String) (vec : List ℚ), vec.length = vocab.length →
    ∃ v, bowLoop vocab true vec text = Except.ok v ∧
      v.length = vocab.length ∧
      ∀ j, v.getD j 0 =
        if hitCount vocab text j ≠ 0 then 1 else vec.getD j 0 := by
  intro text
  induction text with
  | nil =>
    intro vec hlen
    exact ⟨vec, rfl, hlen, fun j => by simp [hitCount_nil]⟩
  | cons w ws ih =>
    intro vec hlen
    cases hw : lookupA w vocab with
    | none =>
      rcases ih vec hlen with ⟨v, hv, hvl, hvd⟩
      refine ⟨v, ?_, hvl, ?_⟩
      · simp [bowLoop, bowStep, hw, hv, bind, Except.bind]
      · intro j
        rw [hvd j, hitCount_cons]
        simp [hw]
    | some i =>
      have hi : i < vec.length := by
        rw [hlen]
        exact hidx _ (lookupA_mem hw)
      rcases ih (vec.set i 1)
        (by rw [List.length_set]; exact hlen) with ⟨v, hv, hvl, hvd⟩
      refine ⟨v, ?_, hvl, ?_⟩
      · simp [bowLoop, bowStep, hw, hi, hv, bind, Except.bind]
      · intro j
        rw [hvd j, hitCount_cons]
        by_cases hj : j = i
        · subst hj
          rw [getD_set_self hi]
          simp [hw]
        · rw [getD_set_ne (fun he => hj he.symm)]
          have : ¬ lookupA w vocab = some j := by
            rw [hw]
            simp
            exact fun he => hj he.symm
          simp [this]

theorem getD_replicate_zero (n j : ℕ) :
    (List.replicate n (0 : ℚ)).getD j 0 = 0 := by
  simp [List.getD_eq_getElem?_getD, List.getElem?_replicate]
  split <;> rfl

theorem bowLoop_filter (vocab : List (String × ℕ)) (binary : Bool) :
    ∀ (text : List String) (vec : List ℚ),
    bowLoop vocab binary vec
        (text.filter (fun t => (lookupA t vocab).isSome)) =
      bowLoop vocab binary vec text := by
  intro text
  induction text with
  | nil => intro vec; rfl
  | cons w ws ih =>
    intro vec
    cases hw : lookupA w vocab with
    | none =>
      rw [List.filter_cons]
      simp only [hw, Option.isSome_none]
      rw [if_neg (by simp)]
      rw [ih vec]
      conv_rhs => rw [bowLoop]
      simp [bowStep, hw, bind, Except.bind]
    | some i =>
      rw [List.filter_cons]
      rw [if_pos (by simp [hw])]
      rw [bowLoop, bowLoop]
      cases hs : bowStep vocab binary vec w with
      | error e => simp [hs, bind, Except.bind]
      | ok v' => simp [hs, bind, Except.bind, ih v']

theorem hitCount_eq_count {vocab : List (String × ℕ)} {t : String} {i : ℕ}
    (hkeys : (vocab.map Prod.fst).Nodup)
    (hvals : (vocab.map Prod.snd).Nodup)
    (hmem : (t, i) ∈ vocab) (text : List String) :
    hitCount vocab text i = text.count t := by
  induction text with
  | nil => rfl
  | cons w ws ih =>
    rw [hitCount_cons, List.count_cons, ih]
    by_cases hwt : w = t
    · subst hwt
      rw [if_pos (lookupA_of_mem_nodup hkeys hmem)]
      simp [Nat.add_comm]
    · have hnw : ¬ lookupA w vocab = some i := by
        intro hlw
        have heq : (w, i) = (t, i) :=
          List.inj_on_of_nodup_map hvals (lookupA_mem hlw) hmem rfl
        exact hwt (congrArg Prod.fst heq)
      rw [if_neg hnw]
      have : (w == t) = false := by
        simp [hwt]
      simp [this]

/-- **C8.** For every token list and every (well-formed) vocabulary,
`bag_of_words` returns, without signalling an error, a vector of length
`|vocab|` in which, in binary mode, position `vocab[t]` is 1 exactly when
token `t` occurs in the input (so repeated tokens do not change the value)
and, in count mode, position `vocab[t]` equals the number of occurrences of
`t`; tokens absent from the vocabulary have no effect (filtering them away
first produces the same vector); and every entry is a non-negative integer,
binary entries lying in `{0, 1}`. -/
theorem claim_C8_bag_of_words (text : List String)
    (vocab : List (String × ℕ)) (binary : Bool)
    (hwf : WellFormedVocab vocab) :
    ∃ v, bag_of_words text vocab binary = Except.ok v ∧
      v.length = vocab.length ∧
      (binary = true → ∀ p ∈ vocab,
        v.getD p.2 0 = if p.1 ∈ text then 1 else 0) ∧
      (binary = false → ∀ p ∈ vocab,
        v.getD p.2 0 = (text.count p.1 : ℚ)) ∧
      bag_of_words (text.filter (fun t => (lookupA t vocab).isSome)) vocab
        binary = Except.ok v ∧
      (∀ x ∈ v, 0 ≤ x ∧ ∃ n : ℕ, x = (n : ℚ)) ∧
      (binary = true → ∀ x ∈ v, x = 0 ∨ x = 1) := by
  obtain ⟨hkeys, hvals, hidx⟩ := hwf
  have hstart : (List.replicate vocab.length (0 : ℚ)).length = vocab.length :=
    List.length_replicate _ _
  cases binary with
  | false =>
    obtain ⟨v, hv, hvl, hvd⟩ :=
      bowLoop_count_spec vocab hidx text _ hstart
    have hvd' : ∀ j, v.getD j 0 = (hitCount vocab text j : ℚ) := by
      intro j
      rw [hvd j, getD_replicate_zero, zero_add]
    refine ⟨v, hv, hvl, by simp, ?_, ?_, ?_, by simp⟩
    · intro _ p hp
      rw [hvd' p.2, hitCount_eq_count hkeys hvals hp text]
    · show bowLoop vocab false _ _ = _
      rw [bowLoop_filter]
      exact hv
    · intro x hx
      obtain ⟨j, hj, hxj⟩ := List.mem_iff_getElem.mp hx
      have : x = (hitCount vocab text j : ℚ) := by
        rw [← hxj, ← List.getD_eq_getElem v 0 hj, hvd' j]
      exact ⟨by rw [this]; positivity, _, this⟩
  | true =>
    obtain ⟨v, hv, hvl, hvd⟩ :=
      bowLoop_binary_spec vocab hidx text _ hstart
    have hvd' : ∀ j, v.getD j 0 =
        if hitCount vocab text j ≠ 0 then 1 else 0 := by
      intro j
      rw [hvd j, getD_replicate_zero]
    refine ⟨v, hv, hvl, ?_, by simp, ?_, ?_, ?_⟩
    · intro _ p hp
      rw [hvd' p.2, hitCount_eq_count hkeys hvals hp text]
      by_cases hm : p.1 ∈ text
      · rw [if_pos hm, if_pos (List.count_pos_iff.mpr hm).ne']
      · rw [if_neg hm, if_neg]
        simp [List.count_eq_zero.mpr hm]
    · show bowLoop vocab true _ _ = _
      rw [bowLoop_filter]
      exact hv
    · intro x hx
      obtain ⟨j, hj, hxj⟩ := List.mem_iff_getElem.mp hx
      have hx' : x = if hitCount vocab text j ≠ 0 then 1 else 0 := by
        rw [← hxj, ← List.getD_eq_getElem v 0 hj, hvd' j]
      rcases ite_eq_or_eq (hitCount vocab text j ≠ 0) (1 : ℚ) 0 with h | h
      · rw [hx', h]
        exact ⟨by norm_num, 1, by norm_num⟩
      · rw [hx', h]
        exact ⟨le_refl 0, 0, by norm_num⟩
    · intro _ x hx
      obtain ⟨j, hj, hxj⟩ := List.mem_iff_getElem.mp hx
      have hx' : x = if hitCount vocab text j ≠ 0 then 1 else 0 := by
        rw [← hxj, ← List.getD_eq_getElem v 0 hj, hvd' j]
      rcases ite_eq_or_eq (hitCount vocab text j ≠ 0) (1 : ℚ) 0 with h | h
      · right; rw [hx', h]
      · left; rw [hx', h]

/-- Witness for C8 at a concrete input: a well-formed three-word vocabulary,
a token list with a repeated in-vocabulary token and one
out-of-vocabulary token. -/
theorem claim_C8_witness :
    WellFormedVocab [("good", 0), ("movie", 1), ("bad", 2)] ∧
    ∃ v, bag_of_words ["good", "movie", "good", "zzz"]
        [("good", 0), ("movie", 1), ("bad", 2)] false = Except.ok v ∧
      v.length = 3 ∧ v.getD 0 0 = 2 ∧ v.getD 2 0 = 0 := by
  have h := claim_C8_bag_of_words ["good", "movie", "good", "zzz"]
    [("good", 0), ("movie", 1), ("bad", 2)] false (by decide)
  obtain ⟨v, h1, h2, _, h4, _, _, _⟩ := h
  refine ⟨by decide, v, h1, by simpa using h2, ?_, ?_⟩
  · have hg := h4 rfl ("good", 0) (by decide)
    have hc : List.count "good" ["good", "movie", "good", "zzz"] = 2 := by decide
    rw [hg]
    norm_num [hc]
  · have hb := h4 rfl ("bad", 2) (by decide)
    have hc : List.count "bad" ["good", "movie", "good", "zzz"] = 0 := by decide
    rw [hb]
    norm_num [hc]

/-! ### Class-prior lemmas -/

theorem foldl_max_init (l : List ℕ) : ∀ a : ℕ, a ≤ l.foldl max a := by
  induction l with
  | nil => intro a; exact le_refl a
  | cons b l ih =>
    intro a
    exact le_trans (Nat.le_max_left a b) (ih (max a b))

theorem foldl_max_mono (l : List ℕ) :
    ∀ {a b : ℕ}, a ≤ b → l.foldl max a ≤ l.foldl max b := by
  induction l with
  | nil => intro a b h; exact h
  | cons c l ih =>
    intro a b h
    exact ih (max_le_max h (le_refl c))

theorem le_maxLabel {labels : List ℕ} {x : ℕ} (hx : x ∈ labels) :
    x ≤ maxLabel labels := by
  induction labels with
  | nil => simp at hx
  | cons b l ih =>
    rcases List.mem_cons.mp hx with h | h
    · subst h
      exact le_trans (Nat.le_max_right 0 x) (foldl_max_init l (max 0 x))
    · exact le_trans (ih h) (foldl_max_mono l (Nat.zero_le _))

theorem getD_map_range {α : Type} (d : α) (n c : ℕ) (f : ℕ → α)
    (h : c < n) : ((List.range n).map f).getD c d = f c := by
  rw [List.getD_eq_getElem?_getD, List.getElem?_map, List.getElem?_range h]
  rfl

theorem sum_count_range (labels : List ℕ) (K : ℕ)
    (h : ∀ l ∈ labels, l < K) :
    ∑ c ∈ Finset.range K, labels.count c = labels.length := by
  induction labels with
  | nil => simp
  | cons l ls ih =>
    have hl : l < K := h l (List.mem_cons_self _ _)
    have ihh := ih (fun x hx => h x (List.mem_cons_of_mem _ hx))
    have hcc : ∀ c, (l :: ls).count c = ls.count c + if l = c then 1 else 0 := by
      intro c
      rw [List.count_cons]
      by_cases hc : l = c <;> simp [hc]
    calc ∑ c ∈ Finset.range K, (l :: ls).count c
        = ∑ c ∈ Finset.range K, (ls.count c + if l = c then 1 else 0) := by
          exact Finset.sum_congr rfl (fun c _ => hcc c)
      _ = (∑ c ∈ Finset.range K, ls.count c) +
            ∑ c ∈ Finset.range K, (if l = c then 1 else 0) :=
          Finset.sum_add_distrib
      _ = ls.length + 1 := by
          rw [ihh, Finset.sum_ite_eq, if_pos (Finset.mem_range.mpr hl)]
      _ = (l :: ls).length := by simp

theorem isEmpty_false_of_ne_nil {labels : List ℕ} (h : labels ≠ []) :
    labels.isEmpty = false := by
  cases labels with
  | nil => exact absurd rfl h
  | cons a l => rfl

theorem estimate_class_priors_eq (labels : List ℕ) (h : labels ≠ []) :
    estimate_class_priors labels =
      (List.range (maxLabel labels + 1)).map
        (fun c => (labels.count c : ℚ) / (labels.length : ℚ)) := by
  rw [estimate_class_priors, bincount, if_neg (by simp [isEmpty_false_of_ne_nil h]),
    List.map_map]
  rfl

/-- **C3.** For every non-empty label vector, the estimated class priors
cover exactly the classes `0..max(label)`; prior `c` equals the number of
examples of class `c` divided by the number of examples; the priors sum
to 1; and a class in range with no observed example receives prior 0. -/
theorem claim_C3_estimate_class_priors (labels : List ℕ) (h : labels ≠ []) :
    (estimate_class_priors labels).length = maxLabel labels + 1 ∧
    (∀ c ≤ maxLabel labels, (estimate_class_priors labels).getD c 0 =
      (labels.count c : ℚ) / (labels.length : ℚ)) ∧
    (estimate_class_priors labels).sum = 1 ∧
    (∀ c ≤ maxLabel labels, labels.count c = 0 →
      (estimate_class_priors labels).getD c 0 = 0) := by
  have hp := estimate_class_priors_eq labels h
  have hgetD : ∀ c ≤ maxLabel labels, (estimate_class_priors labels).getD c 0 =
      (labels.count c : ℚ) / (labels.length : ℚ) := by
    intro c hc
    rw [hp, getD_map_range _ _ _ _ (by omega)]
  refine ⟨by rw [hp]; simp, hgetD, ?_, ?_⟩
  · have hK : ∀ l ∈ labels, l < maxLabel labels + 1 :=
      fun l hl => Nat.lt_succ_of_le (le_maxLabel hl)
    have hsum : (estimate_class_priors labels).sum =
        ∑ c ∈ Finset.range (maxLabel labels + 1),
          (labels.count c : ℚ) / (labels.length : ℚ) := by
      rw [hp]
      rfl
    rw [hsum, ← Finset.sum_div]
    have hcast : ∑ c ∈ Finset.range (maxLabel labels + 1),
        (labels.count c : ℚ) = (labels.length : ℚ) := by
      rw [← Nat.cast_sum]
      exact congrArg _ (sum_count_range labels _ hK)
    rw [hcast]
    exact div_self (by
      simpa using List.length_pos.mpr h |>.ne')
  · intro c hc hzero
    rw [hgetD c hc, hzero]
    simp

/-- Witness for C3: the label vector `[1, 0, 1]` (two classes, class 1
twice). -/
theorem claim_C3_witness :
    ([1, 0, 1] : List ℕ) ≠ [] ∧
    ((estimate_class_priors [1, 0, 1]).length = maxLabel [1, 0, 1] + 1 ∧
    (∀ c ≤ maxLabel [1, 0, 1], (estimate_class_priors [1, 0, 1]).getD c 0 =
      (List.count c [1, 0, 1] : ℚ) / ((List.length [1, 0, 1] : ℕ) : ℚ)) ∧
    (estimate_class_priors [1, 0, 1]).sum = 1 ∧
    (∀ c ≤ maxLabel [1, 0, 1], List.count c [1, 0, 1] = 0 →
      (estimate_class_priors [1, 0, 1]).getD c 0 = 0)) :=
  ⟨by decide, claim_C3_estimate_class_priors [1, 0, 1] (by decide)⟩

/-! ### Conditional-probability lemmas -/

theorem addVec_length {a b : List ℚ} {n : ℕ} (ha : a.length = n)
    (hb : b.length = n) : (addVec a b).length = n := by
  rw [addVec, List.length_zipWith, ha, hb]
  exact min_self n

theorem getD_nonneg {r : List ℚ} (h : ∀ x ∈ r, 0 ≤ x) (w : ℕ) :
    0 ≤ r.getD w 0 := by
  rw [List.getD_eq_getElem?_getD]
  cases hg : r[w]? with
  | none => simp
  | some x => simpa using h x (List.getElem?_mem hg)

theorem getD_eq_zero_of_le {r : List ℚ} {w : ℕ} (h : r.length ≤ w) :
    r.getD w 0 = 0 := by
  rw [List.getD_eq_getElem?_getD, List.getElem?_eq_none h]
  rfl

theorem addVec_getD {a b : List ℚ} {n : ℕ} (ha : a.length = n)
    (hb : b.length = n) (j : ℕ) :
    (addVec a b).getD j 0 = a.getD j 0 + b.getD j 0 := by
  have hlen : (addVec a b).length = n := addVec_length ha hb
  by_cases hj : j < n
  · rw [List.getD_eq_getElem (addVec a b) 0 (hlen.symm ▸ hj),
      List.getD_eq_getElem a 0 (ha.symm ▸ hj),
      List.getD_eq_getElem b 0 (hb.symm ▸ hj)]
    exact List.getElem_zipWith
  · rw [getD_eq_zero_of_le (show (addVec a b).length ≤ j by omega),
      getD_eq_zero_of_le (show a.length ≤ j by omega),
      getD_eq_zero_of_le (show b.length ≤ j by omega)]
    norm_num

theorem foldl_addVec_spec {n : ℕ} (rows : List (List ℚ))
    (h : ∀ r ∈ rows, r.length = n) :
    ∀ acc : List ℚ, acc.length = n →
      (rows.foldl addVec acc).length = n ∧
      ∀ j, (rows.foldl addVec acc).getD j 0 =
        acc.getD j 0 + ((rows.map (fun r => r.getD j 0)).sum) := by
  induction rows with
  | nil => intro acc hacc; exact ⟨hacc, fun j => by simp⟩
  | cons r rows ih =>
    intro acc hacc
    have hr : r.length = n := h r (List.mem_cons_self _ _)
    have hrec := ih (fun x hx => h x (List.mem_cons_of_mem _ hx))
      (addVec acc r) (addVec_length hacc hr)
    refine ⟨hrec.1, fun j => ?_⟩
    rw [List.foldl_cons, hrec.2 j, addVec_getD hacc hr j]
    simp [List.map_cons, List.sum_cons]
    ring

theorem sumRows_length {n : ℕ} (rows : List (List ℚ))
    (h : ∀ r ∈ rows, r.length = n) : (sumRows n rows).length = n :=
  (foldl_addVec_spec rows h (zerosQ n) (List.length_replicate n 0)).1

theorem sumRows_getD {n : ℕ} (rows : List (List ℚ))
    (h : ∀ r ∈ rows, r.length = n) (j : ℕ) :
    (sumRows n rows).getD j 0 = ((rows.map (fun r => r.getD j 0)).sum) := by
  have := (foldl_addVec_spec rows h (zerosQ n) (List.length_replicate n 0)).2 j
  rw [sumRows, this, zerosQ, getD_replicate_zero, zero_add]

theorem sum_eq_sum_getD (l : List ℚ) :
    l.sum = ∑ j ∈ Finset.range l.length, l.getD j 0 := by
  induction l with
  | nil => simp
  | cons x xs ih =>
    rw [List.sum_cons, ih, List.length_cons, Finset.sum_range_succ']
    simp only [List.getD_cons_succ, List.getD_cons_zero]
    exact add_comm x _

theorem mem_selectRows {features : List (List ℚ)} {labels : List ℕ} {c : ℕ}
    {r : List ℚ} (h : r ∈ selectRows features labels c) : r ∈ features := by
  rw [selectRows] at h
  rcases List.mem_filterMap.mp h with ⟨⟨row, lab⟩, hmem, heq⟩
  by_cases hc : lab = c
  · simp [hc] at heq
    exact heq ▸ (List.of_mem_zip hmem).1
  · simp [hc] at heq

theorem ecp_eq (features : List (List ℚ)) (labels : List ℕ) (delta : ℚ)
    (hne : labels ≠ []) (hlen : features.length = labels.length) :
    estimate_conditional_probabilities features labels delta =
      Except.ok ((List.range (maxLabel labels + 1)).map (fun c =>
        (sumRows (numCols features) (selectRows features labels c)).map
          (fun count =>
            (count + delta) /
              ((sumRows (numCols features) (selectRows features labels c)).sum +
                delta * (numCols features : ℚ))))) := by
  rw [estimate_conditional_probabilities,
    if_neg (by simp [isEmpty_false_of_ne_nil hne]), if_neg (by simp [hlen])]

theorem getD_map_div {l : List ℚ} {w : ℕ} (f : ℚ → ℚ) (h : w < l.length) :
    (l.map f).getD w 0 = f (l.getD w 0) := by
  rw [List.getD_eq_getElem (l.map f) 0 (by simpa using h), List.getElem_map,
    List.getD_eq_getElem l 0 h]

theorem sum_map_affine (l : List ℚ) (d D : ℚ) :
    (l.map (fun x => (x + d) / D)).sum = (l.sum + l.length * d) / D := by
  induction l with
  | nil => simp
  | cons x xs ih =>
    rw [List.map_cons, List.sum_cons, ih, List.sum_cons, div_add_div_same]
    congr 1
    rw [List.length_cons]
    push_cast
    ring

theorem countCW_nonneg {features : List (List ℚ)} (labels : List ℕ)
    (hnonneg : ∀ r ∈ features, ∀ x ∈ r, 0 ≤ x) (c w : ℕ) :
    0 ≤ countCW features labels c w := by
  apply List.sum_nonneg
  intro x hx
  rcases List.mem_map.mp hx with ⟨r, hr, hrx⟩
  exact hrx ▸ getD_nonneg (hnonneg r (mem_selectRows hr)) w

/-- **C2.** On a non-empty training set of uniformly shaped, non-negative
feature rows over a non-empty vocabulary, the conditional probabilities are
estimated for every class `c = 0..max(label)` and every vocabulary index
`w` as `(count(c,w) + delta) / (Σ_u count(c,u) + delta * vocab_size)`,
where `count(c,w)` sums column `w` over the rows labelled `c`; when
`delta > 0` every such probability is strictly positive and the
probabilities of each class sum to 1 over the vocabulary. -/
theorem claim_C2_conditional_probabilities
    (features : List (List ℚ)) (labels : List ℕ) (delta : ℚ)
    (hne : labels ≠ [])
    (hlen : features.length = labels.length)
    (hrows : ∀ r ∈ features, r.length = numCols features)
    (hnonneg : ∀ r ∈ features, ∀ x ∈ r, 0 ≤ x)
    (hV : 0 < numCols features) :
    ∃ conds, estimate_conditional_probabilities features labels delta =
        Except.ok conds ∧
      conds.length = maxLabel labels + 1 ∧
      (∀ c ≤ maxLabel labels, (conds.getD c []).length = numCols features) ∧
      (∀ c ≤ maxLabel labels, ∀ w < numCols features,
        (conds.getD c []).getD w 0 =
          (countCW features labels c w + delta) /
            ((∑ u ∈ Finset.range (numCols features), countCW features labels c u)
              + delta * (numCols features : ℚ))) ∧
      (0 < delta → ∀ c ≤ maxLabel labels, ∀ w < numCols features,
        0 < (conds.getD c []).getD w 0) ∧
      (0 < delta → ∀ c ≤ maxLabel labels, (conds.getD c []).sum = 1) := by
  have hsel : ∀ c : ℕ, ∀ r ∈ selectRows features labels c,
      r.length = numCols features :=
    fun c r hr => hrows r (mem_selectRows hr)
  have hwlen : ∀ c : ℕ,
      (sumRows (numCols features) (selectRows features labels c)).length =
        numCols features :=
    fun c => sumRows_length _ (hsel c)
  have hwget : ∀ c w : ℕ,
      (sumRows (numCols features) (selectRows features labels c)).getD w 0 =
        countCW features labels c w :=
    fun c w => sumRows_getD _ (hsel c) w
  have hwsum : ∀ c : ℕ,
      (sumRows (numCols features) (selectRows features labels c)).sum =
        ∑ u ∈ Finset.range (numCols features), countCW features labels c u := by
    intro c
    rw [sum_eq_sum_getD, hwlen c]
    exact Finset.sum_congr rfl (fun u _ => hwget c u)
  have hgetc : ∀ c ≤ maxLabel labels,
      (((List.range (maxLabel labels + 1)).map (fun c =>
        (sumRows (numCols features) (selectRows features labels c)).map
          (fun count =>
            (count + delta) /
              ((sumRows (numCols features) (selectRows features labels c)).sum +
                delta * (numCols features : ℚ))))).getD c []) =
        (sumRows (numCols features) (selectRows features labels c)).map
          (fun count =>
            (count + delta) /
              ((sumRows (numCols features) (selectRows features labels c)).sum +
                delta * (numCols features : ℚ))) := by
    intro c hc
    exact getD_map_range [] _ _ _ (by omega)
  refine ⟨_, ecp_eq features labels delta hne hlen, by simp, ?_, ?_, ?_, ?_⟩
  · intro c hc
    rw [hgetc c hc, List.length_map, hwlen c]
  · intro c hc w hw
    rw [hgetc c hc, getD_map_div _ (by rw [hwlen c]; exact hw), hwget c w,
      hwsum c]
  · intro hdelta c hc w hw
    rw [hgetc c hc, getD_map_div _ (by rw [hwlen c]; exact hw), hwget c w]
    apply div_pos
    · have := countCW_nonneg labels hnonneg c w
      linarith
    · rw [hwsum c]
      have hsumnn : 0 ≤ ∑ u ∈ Finset.range (numCols features),
          countCW features labels c u :=
        Finset.sum_nonneg (fun u _ => countCW_nonneg labels hnonneg c u)
      have hVpos : (0 : ℚ) < (numCols features : ℚ) := by
        exact_mod_cast hV
      nlinarith
  · intro hdelta c hc
    rw [hgetc c hc, sum_map_affine, hwlen c]
    have hD : 0 < (sumRows (numCols features) (selectRows features labels c)).sum
        + delta * (numCols features : ℚ) := by
      rw [hwsum c]
      have hsumnn : 0 ≤ ∑ u ∈ Finset.range (numCols features),
          countCW features labels c u :=
        Finset.sum_nonneg (fun u _ => countCW_nonneg labels hnonneg c u)
      have hVpos : (0 : ℚ) < (numCols features : ℚ) := by
        exact_mod_cast hV
      nlinarith
    rw [show (sumRows (numCols features) (selectRows features labels c)).sum +
        (numCols features : ℚ) * delta =
        (sumRows (numCols features) (selectRows features labels c)).sum +
        delta * (numCols features : ℚ) by ring]
    exact div_self hD.ne'

/-- Witness for C2: the two-example, two-word training set
`features = [[1,0],[0,1]]`, `labels = [0,1]`, `delta = 1`. -/
theorem claim_C2_witness :
    ((0 : ℚ) < 1 ∧ ([0, 1] : List ℕ) ≠ [] ∧
      (([[1, 0], [0, 1]] : List (List ℚ)).length = ([0, 1] : List ℕ).length) ∧
      0 < numCols [[1, 0], [0, 1]]) ∧
    ∃ conds,
      estimate_conditional_probabilities [[1, 0], [0, 1]] [0, 1] 1 =
        Except.ok conds ∧
      conds.length = 2 ∧
      (conds.getD 0 []).sum = 1 ∧ (conds.getD 1 []).sum = 1 ∧
      0 < (conds.getD 0 []).getD 0 0 := by
  obtain ⟨conds, h1, h2, _, _, h5, h6⟩ :=
    claim_C2_conditional_probabilities [[1, 0], [0, 1]] [0, 1] 1
      (by decide) (by decide) (by decide) (by decide) (by decide)
  have hmax : maxLabel [0, 1] = 1 := rfl
  refine ⟨⟨by norm_num, by decide, by decide, by decide⟩,
    conds, h1, by rw [h2, hmax], ?_, ?_, ?_⟩
  · exact h6 (by norm_num) 0 (by omega)
  · exact h6 (by norm_num) 1 (by rw [hmax])
  · exact h5 (by norm_num) 0 (by omega) 0 (by decide)

/-! ### `fit` and posterior-path lemmas -/

theorem ecp_eq_condsMatrix (features : List (List ℚ)) (labels : List ℕ)
    (delta : ℚ) (hne : labels ≠ []) (hlen : features.length = labels.length) :
    estimate_conditional_probabilities features labels delta =
      Except.ok (condsMatrix features labels delta) :=
  ecp_eq features labels delta hne hlen

theorem fit_ok (features : List (List ℚ)) (labels : List ℕ) (delta : ℚ)
    (hne : labels ≠ []) (hlen : features.length = labels.length) :
    fit features labels delta =
      Except.ok (fittedModel features labels delta) := by
  rw [fit, ecp_eq_condsMatrix features labels delta hne hlen]
  rfl

theorem logLikelihood_ok (lg : ℚ → ℚ) {feature probs : List ℚ}
    (h : probs.length = feature.length) :
    logLikelihood lg feature probs =
      Except.ok ((List.zipWith (· * ·) feature (probs.map lg)).sum) := by
  rw [logLikelihood, broadcastMul, if_pos (by simp [h])]
  rfl

theorem logLikelihood_shapeMismatch_iff (lg : ℚ → ℚ)
    (feature probs : List ℚ) :
    logLikelihood lg feature probs = Except.error PyError.shapeMismatch ↔
      (feature.length ≠ probs.length ∧ feature.length ≠ 1 ∧
        probs.length ≠ 1) := by
  rw [logLikelihood, broadcastMul]
  simp only [List.length_map]
  by_cases h1 : feature.length = probs.length
  · rw [if_pos h1]
    simp [bind, Except.bind, pure, Except.pure, h1]
  · rw [if_neg h1]
    by_cases h2 : feature.length = 1
    · rw [if_pos h2]
      simp [bind, Except.bind, pure, Except.pure, h1, h2]
    · rw [if_neg h2]
      by_cases h3 : probs.length = 1
      · rw [if_pos h3]
        simp [bind, Except.bind, pure, Except.pure, h1, h2, h3]
      · rw [if_neg h3]
        simp [bind, Except.bind, pure, Except.pure, h1, h2, h3]

theorem posteriorsLoop_ok (lg : ℚ → ℚ) (cps : List (List ℚ))
    (priors : List ℚ) (feature : List ℚ) (cs : List ℕ)
    (h : ∀ c ∈ cs, ∃ probs, cps.get? c = some probs ∧
      probs.length = feature.length) :
    posteriorsLoop lg cps priors feature cs =
      Except.ok (cs.map (fun c =>
        lg (priors.getD c 0) +
          (List.zipWith (· * ·) feature ((cps.getD c []).map lg)).sum)) := by
  induction cs with
  | nil => rfl
  | cons c cs ih =>
    obtain ⟨probs, hp, hplen⟩ := h c (List.mem_cons_self _ _)
    have hgetD : cps.getD c [] = probs := by
      rw [List.getD_eq_getElem?_getD, ← List.get?_eq_getElem?, hp]
      rfl
    have hloop := ih (fun x hx => h x (List.mem_cons_of_mem _ hx))
    rw [posteriorsLoop, hp]
    simp only [logLikelihood_ok lg hplen, hloop, hgetD, List.map_cons,
      bind, Except.bind, pure, Except.pure]

theorem estimate_posteriors_ok (lg : ℚ → ℚ) {cps : List (List ℚ)}
    {priors : List ℚ} (vs : Option ℕ) (feature : List ℚ)
    (hK : 2 ≤ priors.length)
    (hok : ∀ c < priors.length, ∃ probs, cps.get? c = some probs ∧
      probs.length = feature.length) :
    estimate_class_posteriors lg ⟨some priors, some cps, vs⟩ feature =
      Except.ok
        [lg (priors.getD 0 0) +
          (List.zipWith (· * ·) feature ((cps.getD 0 []).map lg)).sum,
         lg (priors.getD 1 0) +
          (List.zipWith (· * ·) feature ((cps.getD 1 []).map lg)).sum] := by
  have hloop := posteriorsLoop_ok lg cps priors feature
    (List.range priors.length)
    (fun c hc => hok c (List.mem_range.mp hc))
  have hget : ∀ i, i < priors.length →
      (((List.range priors.length).map (fun c =>
        lg (priors.getD c 0) +
          (List.zipWith (· * ·) feature ((cps.getD c []).map lg)).sum)).get? i)
        = some (lg (priors.getD i 0) +
          (List.zipWith (· * ·) feature ((cps.getD i []).map lg)).sum) := by
    intro i hi
    rw [List.get?_eq_getElem?, List.getElem?_map, List.getElem?_range hi]
    rfl
  rw [estimate_class_posteriors]
  simp only [hloop, bind, Except.bind]
  rw [hget 0 (by omega), hget 1 (by omega)]
  rfl

theorem priors_length (labels : List ℕ) (hne : labels ≠ []) :
    (estimate_class_priors labels).length = maxLabel labels + 1 := by
  rw [estimate_class_priors_eq labels hne]
  simp

theorem condsMatrix_get (features : List (List ℚ)) (labels : List ℕ)
    (delta : ℚ) {c : ℕ} (hc : c < maxLabel labels + 1) :
    (condsMatrix features labels delta).get? c =
      some ((sumRows (numCols features) (selectRows features labels c)).map
        (fun count =>
          (count + delta) /
            ((sumRows (numCols features) (selectRows features labels c)).sum +
              delta * (numCols features : ℚ)))) := by
  rw [condsMatrix, List.get?_eq_getElem?, List.getElem?_map,
    List.getElem?_range hc]
  rfl

theorem condsMatrix_getD (features : List (List ℚ)) (labels : List ℕ)
    (delta : ℚ) {c : ℕ} (hc : c < maxLabel labels + 1) :
    (condsMatrix features labels delta).getD c [] =
      (sumRows (numCols features) (selectRows features labels c)).map
        (fun count =>
          (count + delta) /
            ((sumRows (numCols features) (selectRows features labels c)).sum +
              delta * (numCols features : ℚ))) := by
  rw [condsMatrix]
  exact getD_map_range [] _ _ _ hc

theorem condsMatrix_length (features : List (List ℚ)) (labels : List ℕ)
    (delta : ℚ) : (condsMatrix features labels delta).length =
      maxLabel labels + 1 := by
  rw [condsMatrix]
  simp

theorem condsMatrix_row_length (features : List (List ℚ)) (labels : List ℕ)
    (delta : ℚ) (c : ℕ)
    (hrows : ∀ r ∈ features, r.length = numCols features)
    (hc : c < maxLabel labels + 1) :
    ((condsMatrix features labels delta).getD c []).length =
      numCols features := by
  rw [condsMatrix_getD features labels delta hc, List.length_map]
  exact sumRows_length _ (fun r hr => hrows r (mem_selectRows hr))

theorem fitted_estimate (lg : ℚ → ℚ) (features : List (List ℚ))
    (labels : List ℕ) (delta : ℚ) (feature : List ℚ)
    (hne : labels ≠ []) (hmax : 1 ≤ maxLabel labels)
    (hrows : ∀ r ∈ features, r.length = numCols features)
    (hfeat : feature.length = numCols features) :
    estimate_class_posteriors lg (fittedModel features labels delta) feature =
      Except.ok
        [lg ((estimate_class_priors labels).getD 0 0) +
          (List.zipWith (· * ·) feature
            (((condsMatrix features labels delta).getD 0 []).map lg)).sum,
         lg ((estimate_class_priors labels).getD 1 0) +
          (List.zipWith (· * ·) feature
            (((condsMatrix features labels delta).getD 1 []).map lg)).sum] := by
  have hK : 2 ≤ (estimate_class_priors labels).length := by
    rw [priors_length labels hne]
    omega
  have hok : ∀ c < (estimate_class_priors labels).length,
      ∃ probs, (condsMatrix features labels delta).get? c = some probs ∧
        probs.length = feature.length := by
    intro c hc
    rw [priors_length labels hne] at hc
    refine ⟨_, condsMatrix_get features labels delta hc, ?_⟩
    rw [List.length_map, sumRows_length _ (fun r hr => hrows r (mem_selectRows hr)),
      hfeat]
  exact estimate_posteriors_ok lg (some (numCols features)) feature hK hok

/-! ### argmax lemmas -/

theorem argmaxQ_lt_length : ∀ (l : List ℚ), l ≠ [] → argmaxQ l < l.length := by
  intro l
  induction l with
  | nil => intro h; exact absurd rfl h
  | cons x xs ih =>
    intro _
    cases xs with
    | nil => simp [argmaxQ]
    | cons y ys =>
      rw [argmaxQ]
      by_cases hm : maxD (y :: ys) ≤ x
      · rw [if_pos hm]
        simp
      · rw [if_neg hm]
        have := ih (by simp)
        simpa [List.length_cons] using Nat.succ_lt_succ this

theorem getD_argmaxQ : ∀ (l : List ℚ), l ≠ [] →
    l.getD (argmaxQ l) 0 = maxD l := by
  intro l
  induction l with
  | nil => intro h; exact absurd rfl h
  | cons x xs ih =>
    intro _
    cases xs with
    | nil => simp [argmaxQ, maxD]
    | cons y ys =>
      rw [argmaxQ]
      by_cases hm : maxD (y :: ys) ≤ x
      · rw [if_pos hm, List.getD_cons_zero]
        exact (max_eq_left hm).symm
      · rw [if_neg hm, List.getD_cons_succ, ih (by simp)]
        exact (max_eq_right (le_of_lt (lt_of_not_le hm))).symm

theorem getD_le_maxD : ∀ (l : List ℚ), ∀ j < l.length, l.getD j 0 ≤ maxD l := by
  intro l
  induction l with
  | nil => intro j hj; simp at hj
  | cons x xs ih =>
    intro j hj
    cases xs with
    | nil =>
      cases j with
      | zero => simp [maxD]
      | succ j => simp at hj
    | cons y ys =>
      cases j with
      | zero =>
        rw [List.getD_cons_zero, maxD]
        exact le_max_left _ _
      | succ j =>
        rw [List.getD_cons_succ, maxD]
        exact le_trans (ih j (by simpa using hj)) (le_max_right _ _)

theorem getD_lt_maxD_of_lt_argmaxQ : ∀ (l : List ℚ), ∀ j < argmaxQ l,
    l.getD j 0 < maxD l := by
  intro l
  induction l with
  | nil => intro j hj; simp [argmaxQ] at hj
  | cons x xs ih =>
    intro j hj
    cases xs with
    | nil => simp [argmaxQ] at hj
    | cons y ys =>
      rw [argmaxQ] at hj
      by_cases hm : maxD (y :: ys) ≤ x
      · rw [if_pos hm] at hj
        omega
      · rw [if_neg hm] at hj
        have hx : x < maxD (y :: ys) := lt_of_not_le hm
        have hmx : maxD (x :: y :: ys) = maxD (y :: ys) :=
          max_eq_right (le_of_lt hx)
        cases j with
        | zero =>
          rw [List.getD_cons_zero, hmx]
          exact hx
        | succ j =>
          rw [List.getD_cons_succ, hmx]
          exact ih j (by omega)

/-! ### `predict` / `predict_proba` plumbing -/

theorem isFalsy_some_ne_nil {α : Type} {l : List α} (h : l ≠ []) :
    isFalsy (some l) = false := by
  cases l with
  | nil => exact absurd rfl h
  | cons a l => rfl

theorem predict_ok {lg : ℚ → ℚ} {m : NaiveBayes} {feature : List ℚ}
    {priors : List ℚ} {cps : List (List ℚ)} {lps : List ℚ}
    (hp : m.class_priors = some priors)
    (hc : m.conditional_probabilities = some cps)
    (hpne : priors ≠ []) (hcne : cps ≠ [])
    (hest : estimate_class_posteriors lg m feature = Except.ok lps) :
    predict lg m feature = Except.ok (argmaxQ lps) := by
  rw [predict, hp, hc, isFalsy_some_ne_nil hpne, isFalsy_some_ne_nil hcne]
  simp [hest, bind, Except.bind, pure, Except.pure]

theorem predict_proba_ok {lg ex : ℚ → ℚ} {m : NaiveBayes} {feature : List ℚ}
    {priors : List ℚ} {cps : List (List ℚ)} {lps : List ℚ}
    (hp : m.class_priors = some priors)
    (hc : m.conditional_probabilities = some cps)
    (hpne : priors ≠ []) (hcne : cps ≠ [])
    (hest : estimate_class_posteriors lg m feature = Except.ok lps) :
    predict_proba lg ex m feature = Except.ok (softmaxQ ex lps) := by
  rw [predict_proba, hp, hc, isFalsy_some_ne_nil hpne, isFalsy_some_ne_nil hcne]
  simp [hest, bind, Except.bind, pure, Except.pure]

theorem softmaxQ_length (ex : ℚ → ℚ) (l : List ℚ) :
    (softmaxQ ex l).length = l.length := by
  rw [softmaxQ]
  simp

theorem logLikelihood_ne_untrained (lg : ℚ → ℚ) (f p : List ℚ) :
    logLikelihood lg f p ≠ Except.error PyError.untrained := by
  rw [logLikelihood, broadcastMul]
  split_ifs <;> simp [bind, Except.bind, pure, Except.pure]

theorem posteriorsLoop_ne_untrained (lg : ℚ → ℚ) (cps : List (List ℚ))
    (priors feature : List ℚ) : ∀ cs : List ℕ,
    posteriorsLoop lg cps priors feature cs ≠
      Except.error PyError.untrained := by
  intro cs
  induction cs with
  | nil => simp [posteriorsLoop]
  | cons c cs ih =>
    rw [posteriorsLoop]
    cases hg : cps.get? c with
    | none => simp
    | some probs =>
      cases hll : logLikelihood lg feature probs with
      | error e =>
        simp only [hll, bind, Except.bind]
        intro hcontra
        injection hcontra with he
        exact logLikelihood_ne_untrained lg feature probs (by rw [hll, he])
      | ok ll =>
        simp only [hll, bind, Except.bind]
        cases hrest : posteriorsLoop lg cps priors feature cs with
        | error e =>
          intro hcontra
          injection hcontra with he
          exact ih (by rw [hrest, he])
        | ok rest => simp [pure, Except.pure]

theorem estimate_some_ne_untrained (lg : ℚ → ℚ) (priors : List ℚ)
    (cps : List (List ℚ)) (vs : Option ℕ) (feature : List ℚ) :
    estimate_class_posteriors lg ⟨some priors, some cps, vs⟩ feature ≠
      Except.error PyError.untrained := by
  rw [estimate_class_posteriors]
  cases hloop : posteriorsLoop lg cps priors feature
      (List.range priors.length) with
  | error e =>
    simp only [hloop, bind, Except.bind]
    intro hcontra
    injection hcontra with he
    exact posteriorsLoop_ne_untrained lg cps priors feature _
      (by rw [hloop, he])
  | ok lps =>
    simp only [hloop, bind, Except.bind]
    cases h0 : lps.get? 0 with
    | none => simp [h0]
    | some a =>
      cases h1 : lps.get? 1 with
      | none => simp [h0, h1]
      | some b => simp [h0, h1, pure, Except.pure]

theorem predict_ne_untrained {lg : ℚ → ℚ} {m : NaiveBayes}
    {feature priors : List ℚ} {cps : List (List ℚ)}
    (hp : m.class_priors = some priors)
    (hc : m.conditional_probabilities = some cps)
    (hpne : priors ≠ []) (hcne : cps ≠ [])
    (hest : estimate_class_posteriors lg m feature ≠
      Except.error PyError.untrained) :
    predict lg m feature ≠ Except.error PyError.untrained := by
  rw [predict, hp, hc, isFalsy_some_ne_nil hpne, isFalsy_some_ne_nil hcne]
  simp only [Bool.or_self, Bool.false_eq_true, if_false]
  cases hr : estimate_class_posteriors lg m feature with
  | error e =>
    simp only [hr, bind, Except.bind]
    intro hcontra
    injection hcontra with he
    exact hest (by rw [hr, he])
  | ok lps => simp [hr, bind, Except.bind, pure, Except.pure]

theorem predict_proba_ne_untrained {lg ex : ℚ → ℚ} {m : NaiveBayes}
    {feature priors : List ℚ} {cps : List (List ℚ)}
    (hp : m.class_priors = some priors)
    (hc : m.conditional_probabilities = some cps)
    (hpne : priors ≠ []) (hcne : cps ≠ [])
    (hest : estimate_class_posteriors lg m feature ≠
      Except.error PyError.untrained) :
    predict_proba lg ex m feature ≠ Except.error PyError.untrained := by
  rw [predict_proba, hp, hc, isFalsy_some_ne_nil hpne, isFalsy_some_ne_nil hcne]
  simp only [Bool.or_self, Bool.false_eq_true, if_false]
  cases hr : estimate_class_posteriors lg m feature with
  | error e =>
    simp only [hr, bind, Except.bind]
    intro hcontra
    injection hcontra with he
    exact hest (by rw [hr, he])
  | ok lps => simp [hr, bind, Except.bind, pure, Except.pure]

theorem priors_ne_nil (labels : List ℕ) (hne : labels ≠ []) :
    estimate_class_priors labels ≠ [] := by
  intro hcontra
  have := priors_length labels hne
  rw [hcontra] at this
  simp at this

theorem condsMatrix_ne_nil (features : List (List ℚ)) (labels : List ℕ)
    (delta : ℚ) : condsMatrix features labels delta ≠ [] := by
  intro hcontra
  have := condsMatrix_length features labels delta
  rw [hcontra] at this
  simp at this

/-- **C7.** Every inference operation on the freshly constructed model
signals the untrained-model error (`ValueError` in
`estimate_class_posteriors`, generic `Exception` in `predict` and
`predict_proba`); after a successful `fit` on a non-empty training set,
none of the three operations can signal that error, whatever the feature
vector. -/
theorem claim_C7_untrained_guard (lg ex : ℚ → ℚ) (feature : List ℚ) :
    estimate_class_posteriors lg NaiveBayes.init feature =
      Except.error PyError.untrained ∧
    predict lg NaiveBayes.init feature = Except.error PyError.untrained ∧
    predict_proba lg ex NaiveBayes.init feature =
      Except.error PyError.untrained ∧
    (∀ (features : List (List ℚ)) (labels : List ℕ) (delta : ℚ)
        (m : NaiveBayes), labels ≠ [] →
      features.length = labels.length →
      fit features labels delta = Except.ok m →
      estimate_class_posteriors lg m feature ≠
        Except.error PyError.untrained ∧
      predict lg m feature ≠ Except.error PyError.untrained ∧
      predict_proba lg ex m feature ≠ Except.error PyError.untrained) := by
  refine ⟨rfl, rfl, rfl, ?_⟩
  intro features labels delta m hne hlen hfit
  rw [fit_ok features labels delta hne hlen] at hfit
  injection hfit with hm
  subst hm
  have hest : estimate_class_posteriors lg (fittedModel features labels delta)
      feature ≠ Except.error PyError.untrained :=
    estimate_some_ne_untrained lg (estimate_class_priors labels)
      (condsMatrix features labels delta) (some (numCols features)) feature
  refine ⟨hest, ?_, ?_⟩
  · exact predict_ne_untrained rfl rfl (priors_ne_nil labels hne)
      (condsMatrix_ne_nil features labels delta) hest
  · exact predict_proba_ne_untrained rfl rfl (priors_ne_nil labels hne)
      (condsMatrix_ne_nil features labels delta) hest

/-- Witness for C7: the untrained error on a fresh model, and its absence
after fitting `[[1,0],[0,1]]` with labels `[0,1]`. -/
theorem claim_C7_witness :
    predict id NaiveBayes.init [1, 0] = Except.error PyError.untrained ∧
    predict id (fittedModel [[1, 0], [0, 1]] [0, 1] 1) [1, 0] ≠
      Except.error PyError.untrained := by
  have h := claim_C7_untrained_guard id id [1, 0]
  exact ⟨h.2.1, (h.2.2.2 [[1, 0], [0, 1]] [0, 1] 1 _ (by decide) (by decide)
    (fit_ok [[1, 0], [0, 1]] [0, 1] 1 (by decide) (by decide))).2.1⟩

/-- Counterexample to **C6** as stated: `fit` with `delta = -1 < 0` signals
no error at all — it returns the trained state (all three attributes set),
rather than signalling an `InvalidParameterError` and leaving the model
untrained. -/
theorem claim_C6_counterexample :
    (-1 : ℚ) < 0 ∧
    fit [[1, 0], [0, 1]] [0, 1] (-1) =
      Except.ok (fittedModel [[1, 0], [0, 1]] [0, 1] (-1)) ∧
    (fittedModel [[1, 0], [0, 1]] [0, 1] (-1)).class_priors ≠ none ∧
    (fittedModel [[1, 0], [0, 1]] [0, 1] (-1)).conditional_probabilities ≠
      none := by
  refine ⟨by norm_num, fit_ok [[1, 0], [0, 1]] [0, 1] (-1) (by decide) rfl,
    ?_, ?_⟩
  · rw [fittedModel]
    simp
  · rw [fittedModel]
    simp

/-- **C6 amended.** `fit` performs no validation of the smoothing
parameter: for every `delta` — negative values included — fitting a
non-empty training set signals no error and stores priors, conditional
probabilities and the vocabulary size computed by the same formulas. -/
theorem claim_C6_amended (features : List (List ℚ)) (labels : List ℕ)
    (delta : ℚ) (hne : labels ≠ [])
    (hlen : features.length = labels.length) :
    fit features labels delta =
      Except.ok
        { class_priors := some (estimate_class_priors labels),
          conditional_probabilities :=
            some (condsMatrix features labels delta),
          vocab_size := some (numCols features) } :=
  fit_ok features labels delta hne hlen

/-- Witness for the amended C6 at `delta = -1`. -/
theorem claim_C6_witness :
    ([0, 1] : List ℕ) ≠ [] ∧
    ([[1, 0], [0, 1]] : List (List ℚ)).length = ([0, 1] : List ℕ).length ∧
    fit [[1, 0], [0, 1]] [0, 1] (-1) =
      Except.ok
        { class_priors := some (estimate_class_priors [0, 1]),
          conditional_probabilities :=
            some (condsMatrix [[1, 0], [0, 1]] [0, 1] (-1)),
          vocab_size := some (numCols [[1, 0], [0, 1]]) } :=
  ⟨by decide, by decide,
    claim_C6_amended [[1, 0], [0, 1]] [0, 1] (-1) (by decide) (by decide)⟩

theorem logLikelihood_isOk (lg : ℚ → ℚ) (feature probs : List ℚ)
    (h : feature.length = probs.length ∨ feature.length = 1 ∨
      probs.length = 1) :
    ∃ v, logLikelihood lg feature probs = Except.ok v := by
  rw [logLikelihood, broadcastMul]
  simp only [List.length_map]
  split_ifs with h1 h2 h3
  · exact ⟨_, rfl⟩
  · exact ⟨_, rfl⟩
  · exact ⟨_, rfl⟩
  · tauto

theorem posteriorsLoop_isOk (lg : ℚ → ℚ) (cps : List (List ℚ))
    (priors feature : List ℚ) : ∀ cs : List ℕ,
    (∀ c ∈ cs, ∃ probs, cps.get? c = some probs ∧
      ∃ v, logLikelihood lg feature probs = Except.ok v) →
    ∃ lps, posteriorsLoop lg cps priors feature cs = Except.ok lps ∧
      lps.length = cs.length := by
  intro cs
  induction cs with
  | nil => intro _; exact ⟨[], rfl, rfl⟩
  | cons c cs ih =>
    intro h
    obtain ⟨probs, hg, v, hll⟩ := h c (List.mem_cons_self _ _)
    obtain ⟨lps, hlps, hlen⟩ := ih (fun x hx => h x (List.mem_cons_of_mem _ hx))
    refine ⟨(lg (priors.getD c 0) + v) :: lps, ?_, by simp [hlen]⟩
    rw [posteriorsLoop, hg]
    simp [hll, hlps, bind, Except.bind, pure, Except.pure]

theorem posteriorsLoop_error_head (lg : ℚ → ℚ) (cps : List (List ℚ))
    (priors feature : List ℚ) (c : ℕ) (cs : List ℕ) (probs : List ℚ)
    (e : PyError) (hg : cps.get? c = some probs)
    (hll : logLikelihood lg feature probs = Except.error e) :
    posteriorsLoop lg cps priors feature (c :: cs) = Except.error e := by
  rw [posteriorsLoop, hg]
  simp [hll, bind, Except.bind]

theorem estimate_some_isOk (lg : ℚ → ℚ) (priors : List ℚ)
    (cps : List (List ℚ)) (vs : Option ℕ) (feature : List ℚ)
    (hK : 2 ≤ priors.length)
    (h : ∀ c < priors.length, ∃ probs, cps.get? c = some probs ∧
      ∃ v, logLikelihood lg feature probs = Except.ok v) :
    ∃ lps, estimate_class_posteriors lg ⟨some priors, some cps, vs⟩ feature =
      Except.ok lps ∧ lps.length = 2 := by
  obtain ⟨lps, hlps, hlen⟩ := posteriorsLoop_isOk lg cps priors feature
    (List.range priors.length) (fun c hc => h c (List.mem_range.mp hc))
  rw [List.length_range] at hlen
  have h0 : lps.get? 0 = some (lps.getD 0 0) := by
    rw [List.get?_eq_getElem?, List.getElem?_eq_getElem (by omega),
      List.getD_eq_getElem lps 0 (by omega)]
  have h1 : lps.get? 1 = some (lps.getD 1 0) := by
    rw [List.get?_eq_getElem?, List.getElem?_eq_getElem (by omega),
      List.getD_eq_getElem lps 0 (by omega)]
  refine ⟨[lps.getD 0 0, lps.getD 1 0], ?_, rfl⟩
  rw [estimate_class_posteriors]
  simp only [hlps, bind, Except.bind]
  rw [h0, h1]
  rfl

theorem estimate_some_error_head (lg : ℚ → ℚ) (priors : List ℚ)
    (cps : List (List ℚ)) (vs : Option ℕ) (feature probs : List ℚ)
    (e : PyError) (hpne : priors ≠ [])
    (hg : cps.get? 0 = some probs)
    (hll : logLikelihood lg feature probs = Except.error e) :
    estimate_class_posteriors lg ⟨some priors, some cps, vs⟩ feature =
      Except.error e := by
  have hKpos : 0 < priors.length := List.length_pos.mpr hpne
  have hrange : List.range priors.length =
      0 :: (List.range (priors.length - 1)).map Nat.succ := by
    cases hl : priors.length with
    | zero => omega
    | succ n =>
      rw [List.range_succ_eq_map]
      simp
  have hloop : posteriorsLoop lg cps priors feature
      (List.range priors.length) = Except.error e := by
    rw [hrange]
    exact posteriorsLoop_error_head lg cps priors feature 0 _ probs e hg hll
  rw [estimate_class_posteriors]
  simp [hloop, bind, Except.bind]

theorem predict_error {lg : ℚ → ℚ} {m : NaiveBayes}
    {feature priors : List ℚ} {cps : List (List ℚ)} {e : PyError}
    (hp : m.class_priors = some priors)
    (hc : m.conditional_probabilities = some cps)
    (hpne : priors ≠ []) (hcne : cps ≠ [])
    (hest : estimate_class_posteriors lg m feature = Except.error e) :
    predict lg m feature = Except.error e := by
  rw [predict, hp, hc, isFalsy_some_ne_nil hpne, isFalsy_some_ne_nil hcne]
  simp [hest, bind, Except.bind]

theorem predict_proba_error {lg ex : ℚ → ℚ} {m : NaiveBayes}
    {feature priors : List ℚ} {cps : List (List ℚ)} {e : PyError}
    (hp : m.class_priors = some priors)
    (hc : m.conditional_probabilities = some cps)
    (hpne : priors ≠ []) (hcne : cps ≠ [])
    (hest : estimate_class_posteriors lg m feature = Except.error e) :
    predict_proba lg ex m feature = Except.error e := by
  rw [predict_proba, hp, hc, isFalsy_some_ne_nil hpne, isFalsy_some_ne_nil hcne]
  simp [hest, bind, Except.bind]

/-- **C5 amended.** The code performs no explicit dimension check against
the stored `vocab_size`: on a trained model, the inference operations
signal the tensor library's shape error exactly when the feature length
differs from `vocab_size` AND neither the feature length nor `vocab_size`
is 1 (a length-1 operand silently broadcasts); with a matching length no
error is signalled. -/
theorem claim_C5_amended (lg ex : ℚ → ℚ) (features : List (List ℚ))
    (labels : List ℕ) (delta : ℚ) (feature : List ℚ)
    (hne : labels ≠ []) (hlen : features.length = labels.length)
    (hmax : 1 ≤ maxLabel labels)
    (hrows : ∀ r ∈ features, r.length = numCols features) :
    ∀ m, fit features labels delta = Except.ok m →
      (estimate_class_posteriors lg m feature =
          Except.error PyError.shapeMismatch ↔
        (feature.length ≠ numCols features ∧ feature.length ≠ 1 ∧
          numCols features ≠ 1)) ∧
      (predict lg m feature = Except.error PyError.shapeMismatch ↔
        (feature.length ≠ numCols features ∧ feature.length ≠ 1 ∧
          numCols features ≠ 1)) ∧
      (predict_proba lg ex m feature = Except.error PyError.shapeMismatch ↔
        (feature.length ≠ numCols features ∧ feature.length ≠ 1 ∧
          numCols features ≠ 1)) ∧
      (feature.length = numCols features →
        ∃ lps, estimate_class_posteriors lg m feature = Except.ok lps) := by
  intro m hfit
  rw [fit_ok features labels delta hne hlen] at hfit
  injection hfit with hm
  subst hm
  have hK : 2 ≤ (estimate_class_priors labels).length := by
    rw [priors_length labels hne]
    omega
  have hrowlen : ∀ c < (estimate_class_priors labels).length,
      ((condsMatrix features labels delta).getD c []).length =
        numCols features := by
    intro c hc
    rw [priors_length labels hne] at hc
    exact condsMatrix_row_length features labels delta c hrows hc
  have hget : ∀ c < (estimate_class_priors labels).length,
      (condsMatrix features labels delta).get? c =
        some ((condsMatrix features labels delta).getD c []) := by
    intro c hc
    rw [priors_length labels hne] at hc
    rw [condsMatrix_get features labels delta hc,
      condsMatrix_getD features labels delta hc]
  by_cases hcond : feature.length ≠ numCols features ∧ feature.length ≠ 1 ∧
      numCols features ≠ 1
  · have hest : estimate_class_posteriors lg
        (fittedModel features labels delta) feature =
        Except.error PyError.shapeMismatch := by
      apply estimate_some_error_head lg _ _ _ _
        ((condsMatrix features labels delta).getD 0 []) _
        (priors_ne_nil labels hne) (hget 0 (by omega))
      apply (logLikelihood_shapeMismatch_iff lg feature _).mpr
      refine ⟨?_, hcond.2.1, ?_⟩
      · rw [hrowlen 0 (by omega)]
        exact hcond.1
      · rw [hrowlen 0 (by omega)]
        exact hcond.2.2
    refine ⟨⟨fun _ => hcond, fun _ => hest⟩, ?_, ?_, ?_⟩
    · exact ⟨fun _ => hcond, fun _ => predict_error rfl rfl
        (priors_ne_nil labels hne)
        (condsMatrix_ne_nil features labels delta) hest⟩
    · exact ⟨fun _ => hcond, fun _ => predict_proba_error rfl rfl
        (priors_ne_nil labels hne)
        (condsMatrix_ne_nil features labels delta) hest⟩
    · intro hfeat
      exact absurd hfeat hcond.1
  · have hor : feature.length = numCols features ∨ feature.length = 1 ∨
        numCols features = 1 := by
      tauto
    have hok : ∀ c < (estimate_class_priors labels).length,
        ∃ probs, (condsMatrix features labels delta).get? c = some probs ∧
          ∃ v, logLikelihood lg feature probs = Except.ok v := by
      intro c hc
      refine ⟨_, hget c hc, logLikelihood_isOk lg feature _ ?_⟩
      rw [hrowlen c hc]
      exact hor
    obtain ⟨lps, hest, hlps2⟩ := estimate_some_isOk lg
      (estimate_class_priors labels) (condsMatrix features labels delta)
      (some (numCols features)) feature hK hok
    have hestF : estimate_class_posteriors lg
        (fittedModel features labels delta) feature = Except.ok lps := hest
    have hpredF : predict lg (fittedModel features labels delta) feature =
        Except.ok (argmaxQ lps) :=
      predict_ok rfl rfl (priors_ne_nil labels hne)
        (condsMatrix_ne_nil features labels delta) hest
    have hpredpF : predict_proba lg ex (fittedModel features labels delta)
        feature = Except.ok (softmaxQ ex lps) :=
      predict_proba_ok rfl rfl
        (priors_ne_nil labels hne)
        (condsMatrix_ne_nil features labels delta) hest
    refine ⟨?_, ?_, ?_, fun _ => ⟨lps, hestF⟩⟩
    · constructor
      · intro hcontra
        rw [hestF] at hcontra
        exact absurd hcontra (by simp)
      · intro hc
        exact absurd hc hcond
    · constructor
      · intro hcontra
        rw [hpredF] at hcontra
        exact absurd hcontra (by simp)
      · intro hc
        exact absurd hc hcond
    · constructor
      · intro hcontra
        rw [hpredpF] at hcontra
        exact absurd hcontra (by simp)
      · intro hc
        exact absurd hc hcond

/-- Counterexample to **C5** as stated: on a model trained with
`vocab_size = 2`, a feature vector of length 1 — a length that differs from
the stored `vocab_size` — raises no error at all: the tensor product
broadcasts and `estimate_class_posteriors` returns a posterior vector. -/
theorem claim_C5_counterexample :
    (fittedModel [[1, 0], [0, 1]] [0, 1] 1).vocab_size = some 2 ∧
    ([(0 : ℚ)] : List ℚ).length ≠ 2 ∧
    ∃ lps, estimate_class_posteriors id
      (fittedModel [[1, 0], [0, 1]] [0, 1] 1) [0] = Except.ok lps := by
  have hK : 2 ≤ (estimate_class_priors [0, 1]).length := by
    rw [priors_length [0, 1] (by decide)]
    decide
  have hok : ∀ c < (estimate_class_priors [0, 1]).length,
      ∃ probs, (condsMatrix [[1, 0], [0, 1]] [0, 1] 1).get? c = some probs ∧
        ∃ v, logLikelihood id [0] probs = Except.ok v := by
    intro c hc
    rw [priors_length [0, 1] (by decide)] at hc
    refine ⟨_, condsMatrix_get [[1, 0], [0, 1]] [0, 1] 1 hc,
      logLikelihood_isOk id [0] _ ?_⟩
    right
    left
    rfl
  obtain ⟨lps, hest, _⟩ := estimate_some_isOk id (estimate_class_priors [0, 1])
    (condsMatrix [[1, 0], [0, 1]] [0, 1] 1) (some (numCols [[1, 0], [0, 1]]))
    [0] hK hok
  exact ⟨rfl, by decide, lps, hest⟩

/-- Witness for the amended C5: on the same trained model, a
length-3 feature raises the shape error and a length-2 (matching) feature
does not. -/
theorem claim_C5_witness :
    ([0, 1] : List ℕ) ≠ [] ∧ 1 ≤ maxLabel [0, 1] ∧
    estimate_class_posteriors id (fittedModel [[1, 0], [0, 1]] [0, 1] 1)
      [1, 2, 3] = Except.error PyError.shapeMismatch ∧
    ∃ lps, estimate_class_posteriors id
      (fittedModel [[1, 0], [0, 1]] [0, 1] 1) [1, 2] = Except.ok lps := by
  have h3 := claim_C5_amended id id [[1, 0], [0, 1]] [0, 1] 1 [1, 2, 3]
    (by decide) (by decide) (by decide) (by decide) _
    (fit_ok [[1, 0], [0, 1]] [0, 1] 1 (by decide) (by decide))
  have h2 := claim_C5_amended id id [[1, 0], [0, 1]] [0, 1] 1 [1, 2]
    (by decide) (by decide) (by decide) (by decide) _
    (fit_ok [[1, 0], [0, 1]] [0, 1] 1 (by decide) (by decide))
  refine ⟨by decide, by decide, ?_, ?_⟩
  · exact h3.1.mpr ⟨by decide, by decide, by decide⟩
  · exact h2.2.2.2 (by decide)

theorem zipWith_mul_map_sum (lg : ℚ → ℚ) : ∀ (feature probs : List ℚ),
    probs.length = feature.length →
    (List.zipWith (· * ·) feature (probs.map lg)).sum =
      ∑ w ∈ Finset.range feature.length,
        feature.getD w 0 * lg (probs.getD w 0) := by
  intro feature
  induction feature with
  | nil => intro probs h; simp
  | cons x xs ih =>
    intro probs h
    cases probs with
    | nil => simp at h
    | cons p ps =>
      rw [List.map_cons, List.zipWith_cons_cons, List.sum_cons,
        ih ps (by simpa using h), List.length_cons, Finset.sum_range_succ']
      simp only [List.getD_cons_succ, List.getD_cons_zero]
      exact add_comm _ _

/-- Counterexample to **C1** as stated: training on three classes
(labels `[0,1,2]`, so classes `0..max(label)` are three) still yields a
posterior vector with exactly 2 entries, not one entry per class present
in training. -/
theorem claim_C1_counterexample :
    maxLabel [0, 1, 2] + 1 = 3 ∧
    fit [[1], [1], [1]] [0, 1, 2] 1 =
      Except.ok (fittedModel [[1], [1], [1]] [0, 1, 2] 1) ∧
    ∃ lps, estimate_class_posteriors id
      (fittedModel [[1], [1], [1]] [0, 1, 2] 1) [1] = Except.ok lps ∧
      lps.length = 2 := by
  refine ⟨rfl, fit_ok [[1], [1], [1]] [0, 1, 2] 1 (by decide) rfl, ?_⟩
  have h := fitted_estimate id [[1], [1], [1]] [0, 1, 2] 1 [1]
    (by decide) (by decide) (by decide) (by decide)
  exact ⟨_, h, rfl⟩

/-- **C1 amended.** On a model trained with at least two classes and a
feature of the trained width, `estimate_class_posteriors` returns the
two-entry vector for classes 0 and 1 only (whatever the number of trained
classes), entry `c` being
`log(class_priors[c]) + Σ_w feature[w] * log(conditional_probabilities[c][w])`. -/
theorem claim_C1_amended (lg : ℚ → ℚ) (features : List (List ℚ))
    (labels : List ℕ) (delta : ℚ) (feature : List ℚ)
    (hne : labels ≠ []) (hlen : features.length = labels.length)
    (hmax : 1 ≤ maxLabel labels)
    (hrows : ∀ r ∈ features, r.length = numCols features)
    (hfeat : feature.length = numCols features) :
    ∀ m, fit features labels delta = Except.ok m →
      ∃ priors conds,
        m.class_priors = some priors ∧
        m.conditional_probabilities = some conds ∧
        estimate_class_posteriors lg m feature =
          Except.ok
            [lg (priors.getD 0 0) + ∑ w ∈ Finset.range (numCols features),
                feature.getD w 0 * lg ((conds.getD 0 []).getD w 0),
             lg (priors.getD 1 0) + ∑ w ∈ Finset.range (numCols features),
                feature.getD w 0 * lg ((conds.getD 1 []).getD w 0)] := by
  intro m hfit
  rw [fit_ok features labels delta hne hlen] at hfit
  injection hfit with hm
  subst hm
  refine ⟨estimate_class_priors labels, condsMatrix features labels delta,
    rfl, rfl, ?_⟩
  rw [fitted_estimate lg features labels delta feature hne hmax hrows hfeat]
  have h0 : ((condsMatrix features labels delta).getD 0 []).length =
      feature.length := by
    rw [condsMatrix_row_length features labels delta 0 hrows (by omega), hfeat]
  have h1 : ((condsMatrix features labels delta).getD 1 []).length =
      feature.length := by
    rw [condsMatrix_row_length features labels delta 1 hrows (by omega), hfeat]
  rw [zipWith_mul_map_sum lg feature _ h0, zipWith_mul_map_sum lg feature _ h1,
    hfeat]

/-- Witness for the amended C1 on the two-class training set
`[[1,0],[0,1]]`, labels `[0,1]`. -/
theorem claim_C1_witness :
    ∃ lps, estimate_class_posteriors id
        (fittedModel [[1, 0], [0, 1]] [0, 1] 1) [1, 0] = Except.ok lps ∧
      lps.length = 2 := by
  obtain ⟨priors, conds, _, _, hest⟩ :=
    claim_C1_amended id [[1, 0], [0, 1]] [0, 1] 1 [1, 0] (by decide)
      (by decide) (by decide) (by decide) (by decide) _
      (fit_ok [[1, 0], [0, 1]] [0, 1] 1 (by decide) (by decide))
  exact ⟨_, hest, rfl⟩

/-- **C9.** On a trained model, `predict` returns the index of the
maximal entry of the log-posterior vector, and when several entries are
equal and maximal it returns the lowest such index (the first-maximum
semantics of `torch.argmax`). -/
theorem claim_C9_predict_argmax (lg : ℚ → ℚ) (features : List (List ℚ))
    (labels : List ℕ) (delta : ℚ) (feature : List ℚ)
    (hne : labels ≠ []) (hlen : features.length = labels.length)
    (hmax : 1 ≤ maxLabel labels)
    (hrows : ∀ r ∈ features, r.length = numCols features)
    (hfeat : feature.length = numCols features) :
    ∀ m, fit features labels delta = Except.ok m →
      ∃ lps c, estimate_class_posteriors lg m feature = Except.ok lps ∧
        predict lg m feature = Except.ok c ∧
        c < lps.length ∧
        (∀ j < lps.length, lps.getD j 0 ≤ lps.getD c 0) ∧
        (∀ j < c, lps.getD j 0 < lps.getD c 0) := by
  intro m hfit
  rw [fit_ok features labels delta hne hlen] at hfit
  injection hfit with hm
  subst hm
  have hest := fitted_estimate lg features labels delta feature hne hmax
    hrows hfeat
  refine ⟨_, argmaxQ _, hest,
    predict_ok rfl rfl (priors_ne_nil labels hne)
      (condsMatrix_ne_nil features labels delta) hest, ?_, ?_, ?_⟩
  · exact argmaxQ_lt_length _ (by simp)
  · intro j hj
    rw [getD_argmaxQ _ (by simp)]
    exact getD_le_maxD _ j hj
  · intro j hj
    rw [getD_argmaxQ _ (by simp)]
    exact getD_lt_maxD_of_lt_argmaxQ _ j hj

/-- Witness for C9 on the two-class training set `[[1,0],[0,1]]`,
labels `[0,1]`, feature `[1,0]`. -/
theorem claim_C9_witness :
    ∃ lps c, estimate_class_posteriors id
        (fittedModel [[1, 0], [0, 1]] [0, 1] 1) [1, 0] = Except.ok lps ∧
      predict id (fittedModel [[1, 0], [0, 1]] [0, 1] 1) [1, 0] =
        Except.ok c ∧
      c < lps.length ∧
      (∀ j < lps.length, lps.getD j 0 ≤ lps.getD c 0) ∧
      (∀ j < c, lps.getD j 0 < lps.getD c 0) :=
  claim_C9_predict_argmax id [[1, 0], [0, 1]] [0, 1] 1 [1, 0] (by decide)
    (by decide) (by decide) (by decide) (by decide) _
    (fit_ok [[1, 0], [0, 1]] [0, 1] 1 (by decide) (by decide))

/-- **C10.** On a model trained with at least two classes present
(`max(label) ≥ 1`) and a feature of the trained width, `predict` returns a
label in `{0, 1}` and `predict_proba` returns exactly 2 probabilities,
however many classes the training labels contained: the posterior vector
is built from the entries for classes 0 and 1 only. -/
theorem claim_C10_two_class_output (lg ex : ℚ → ℚ)
    (features : List (List ℚ)) (labels : List ℕ) (delta : ℚ)
    (feature : List ℚ)
    (hne : labels ≠ []) (hlen : features.length = labels.length)
    (hmax : 1 ≤ maxLabel labels)
    (hrows : ∀ r ∈ features, r.length = numCols features)
    (hfeat : feature.length = numCols features) :
    ∀ m, fit features labels delta = Except.ok m →
      (∃ lps, estimate_class_posteriors lg m feature = Except.ok lps ∧
        lps.length = 2) ∧
      (∃ c, predict lg m feature = Except.ok c ∧ (c = 0 ∨ c = 1)) ∧
      (∃ probs, predict_proba lg ex m feature = Except.ok probs ∧
        probs.length = 2) := by
  intro m hfit
  rw [fit_ok features labels delta hne hlen] at hfit
  injection hfit with hm
  subst hm
  have hest := fitted_estimate lg features labels delta feature hne hmax
    hrows hfeat
  refine ⟨⟨_, hest, rfl⟩, ⟨argmaxQ _, predict_ok rfl rfl
    (priors_ne_nil labels hne) (condsMatrix_ne_nil features labels delta)
    hest, ?_⟩, ⟨_, predict_proba_ok rfl rfl (priors_ne_nil labels hne)
    (condsMatrix_ne_nil features labels delta) hest, ?_⟩⟩
  · have := argmaxQ_lt_length
      [lg ((estimate_class_priors labels).getD 0 0) +
        (List.zipWith (· * ·) feature
          (((condsMatrix features labels delta).getD 0 []).map lg)).sum,
       lg ((estimate_class_priors labels).getD 1 0) +
        (List.zipWith (· * ·) feature
          (((condsMatrix features labels delta).getD 1 []).map lg)).sum]
      (by simp)
    simp only [List.length_cons, List.length_nil] at this
    omega
  · rw [softmaxQ_length]
    rfl

/-- Witness for C10 on a THREE-class training set (`labels = [0,1,2]`):
the outputs still have exactly two classes. -/
theorem claim_C10_witness :
    (∃ lps, estimate_class_posteriors id
        (fittedModel [[1], [1], [1]] [0, 1, 2] 1) [1] = Except.ok lps ∧
      lps.length = 2) ∧
    (∃ c, predict id (fittedModel [[1], [1], [1]] [0, 1, 2] 1) [1] =
        Except.ok c ∧ (c = 0 ∨ c = 1)) ∧
    (∃ probs, predict_proba id id
        (fittedModel [[1], [1], [1]] [0, 1, 2] 1) [1] = Except.ok probs ∧
      probs.length = 2) :=
  claim_C10_two_class_output id id [[1], [1], [1]] [0, 1, 2] 1 [1]
    (by decide) (by decide) (by decide) (by decide) (by decide) _
    (fit_ok [[1], [1], [1]] [0, 1, 2] 1 (by decide) (by decide))

theorem c4_priors : estimate_class_priors [1, 0] = [1/2, 1/2] := by
  norm_num [estimate_class_priors, bincount, maxLabel, List.range_succ]

theorem c4_conds : condsMatrix [[1, 1, 0], [0, 1, 1]] [1, 0] 1 =
    [[1/5, 2/5, 2/5], [2/5, 2/5, 1/5]] := by
  norm_num [condsMatrix, sumRows, selectRows, addVec, zerosQ, numCols,
    maxLabel, List.range_succ, List.filterMap_cons, List.filterMap_nil,
    List.foldl_cons, List.foldl_nil, List.replicate_succ,
    List.zipWith_cons_cons, List.sum_cons]

theorem c4_bow_good_movie : bag_of_words ["good", "movie"]
    [("good", 0), ("movie", 1), ("bad", 2)] false = Except.ok [1, 1, 0] := by
  have h1 : lookupA "good" [("good", 0), ("movie", 1), ("bad", 2)] =
      some 0 := by decide
  have h2 : lookupA "movie" [("good", 0), ("movie", 1), ("bad", 2)] =
      some 1 := by decide
  have s1 : bowStep [("good", 0), ("movie", 1), ("bad", 2)] false
      [0, 0, 0] "good" = Except.ok [1, 0, 0] := by
    rw [bowStep, h1]
    norm_num [List.set]
  have s2 : bowStep [("good", 0), ("movie", 1), ("bad", 2)] false
      [1, 0, 0] "movie" = Except.ok [1, 1, 0] := by
    rw [bowStep, h2]
    norm_num [List.set]
  show bowLoop _ _ [0, 0, 0] _ = _
  rw [bowLoop]
  simp only [s1, bind, Except.bind]
  rw [bowLoop]
  simp only [s2, bind, Except.bind]
  rfl

theorem c4_bow_bad : bag_of_words ["bad"]
    [("good", 0), ("movie", 1), ("bad", 2)] false = Except.ok [0, 0, 1] := by
  have h1 : lookupA "bad" [("good", 0), ("movie", 1), ("bad", 2)] =
      some 2 := by decide
  have s1 : bowStep [("good", 0), ("movie", 1), ("bad", 2)] false
      [0, 0, 0] "bad" = Except.ok [0, 0, 1] := by
    rw [bowStep, h1]
    norm_num [List.set]
  show bowLoop _ _ [0, 0, 0] _ = _
  rw [bowLoop]
  simp only [s1, bind, Except.bind]
  rfl

/-- **C4.** The end-to-end scenario: building the vocabulary from
`[(["good","movie"],1), (["bad","movie"],0)]` yields
`{good:0, movie:1, bad:2}`; vectorizing `["good","movie"]` yields
`[1,1,0]` and `["bad"]` yields `[0,0,1]`; fitting the two vectors with
labels `[1,0]` and `delta = 1` yields priors `{0: 1/2, 1: 1/2}`; and
`predict` on `[0,0,1]` returns class 0, for every strictly increasing
interpretation of the logarithm (the real `log` included). -/
theorem claim_C4_end_to_end (lg : ℚ → ℚ)
    (hmono : ∀ a b : ℚ, 0 < a → a < b → lg a < lg b) :
    build_vocab [⟨["good", "movie"], 1⟩, ⟨["bad", "movie"], 0⟩] =
      [("good", 0), ("movie", 1), ("bad", 2)] ∧
    bag_of_words ["good", "movie"]
      [("good", 0), ("movie", 1), ("bad", 2)] false = Except.ok [1, 1, 0] ∧
    bag_of_words ["bad"] [("good", 0), ("movie", 1), ("bad", 2)] false =
      Except.ok [0, 0, 1] ∧
    ∃ m, fit [[1, 1, 0], [0, 1, 1]] [1, 0] 1 = Except.ok m ∧
      m.class_priors = some [1/2, 1/2] ∧
      predict lg m [0, 0, 1] = Except.ok 0 := by
  refine ⟨by decide, c4_bow_good_movie, c4_bow_bad,
    fittedModel [[1, 1, 0], [0, 1, 1]] [1, 0] 1,
    fit_ok [[1, 1, 0], [0, 1, 1]] [1, 0] 1 (by decide) rfl, ?_, ?_⟩
  · show some (estimate_class_priors [1, 0]) = _
    rw [c4_priors]
  · have hest := fitted_estimate lg [[1, 1, 0], [0, 1, 1]] [1, 0] 1 [0, 0, 1]
      (by decide) (by decide) (by decide) (by decide)
    rw [c4_priors, c4_conds] at hest
    norm_num [List.zipWith_cons_cons, List.sum_cons] at hest
    have hpne : estimate_class_priors [1, 0] ≠ [] := by
      rw [c4_priors]
      simp
    have hpred := predict_ok rfl rfl hpne
      (condsMatrix_ne_nil [[1, 1, 0], [0, 1, 1]] [1, 0] 1) hest
    have hlt : lg (1/5 : ℚ) < lg (2/5) := hmono _ _ (by norm_num) (by norm_num)
    have hle : lg (1/2 : ℚ) + lg (1/5) ≤ lg (1/2) + lg (2/5) := by linarith
    rw [hpred]
    congr 1
    have hm : maxD [lg (1/2 : ℚ) + lg (1/5)] = lg (1/2) + lg (1/5) := rfl
    rw [argmaxQ, hm, if_pos hle]

/-- Witness for C4 with the identity function as the (strictly monotone on
the positives) interpretation of the logarithm. -/
theorem claim_C4_witness :
    (∀ a b : ℚ, 0 < a → a < b → id a < id b) ∧
    (build_vocab [⟨["good", "movie"], 1⟩, ⟨["bad", "movie"], 0⟩] =
      [("good", 0), ("movie", 1), ("bad", 2)] ∧
    bag_of_words ["good", "movie"]
      [("good", 0), ("movie", 1), ("bad", 2)] false = Except.ok [1, 1, 0] ∧
    bag_of_words ["bad"] [("good", 0), ("movie", 1), ("bad", 2)] false =
      Except.ok [0, 0, 1] ∧
    ∃ m, fit [[1, 1, 0], [0, 1, 1]] [1, 0] 1 = Except.ok m ∧
      m.class_priors = some [1/2, 1/2] ∧
      predict id m [0, 0, 1] = Except.ok 0) :=
  ⟨fun _ _ _ h => h, claim_C4_end_to_end id (fun _ _ _ h => h)⟩
